import Mathlib

/-!
Verification of the Monte Carlo NPV/IRR simulator (src/source.py).

The numeric core of the program consists of three functions:
  * npv cf_list rate       — the NPV evaluator (source lines 15-21),
  * irr cf_list            — the Newton-Raphson IRR solver (source lines 25-57),
  * montecarloSim …        — the simulation driver (source lines 61-110).

They are shallowly embedded here over the exact rationals ℚ.  The Python
source works with machine floats; working over ℚ keeps every arithmetic
step exact, so the float-overflow branch of the source (the
`except (Warning, OverflowError)` handler) becomes dead code in the
embedding — it is kept as an explicit, never-produced error constructor.
Python anomalies that are *not* overflow, namely the uncaught
ZeroDivisionError raised by `npv/derivative` when the derivative is zero
(that division sits outside the try/except, and ZeroDivisionError is not
an instance of Warning or OverflowError anyway), are modelled by a
distinct error constructor.

The simulation driver draws its random cash flows through the normal
quantile function (scipy's norm.ppf), which has no computable exact
embedding; the driver is therefore derandomised: the matrix of drawn
period cash flows is passed in as an explicit argument, and everything
the driver does *after* the draws (prefixing the initial investment,
computing the per-trajectory (NPV, IRR) pairs, the column-mean
aggregate trajectory, the rounded estimates, and the abort-on-failure
control flow) is translated faithfully from the source.
-/

set_option linter.unusedVariables false

deriving instance DecidableEq for Except

namespace NpvIrr

/-- Source line 28: the hard-coded Newton-Raphson tolerance, 1E-7. -/
def accuracy : ℚ := 1 / 10 ^ 7

/-- Source line 27: the hard-coded maximum number of iterations. -/
def max_iter : ℕ := 20

/-- NPV evaluator, source lines 15-21: starting from `npv = 0` and `i = 0`,
the loop adds `cf / (1+rate)**i` for each cash flow and increments `i`.
The accumulator pair holds the two mutable locals `(npv, i)`. -/
def npv (cf_list : List ℚ) (rate : ℚ) : ℚ :=
  (cf_list.foldl (fun acc cf => (acc.1 + cf / (1 + rate) ^ acc.2, acc.2 + 1))
    ((0 : ℚ), (0 : ℕ))).1

/-- Failure conditions of the IRR solver, source lines 38-57.
  * overflowExit: the `except (Warning, OverflowError)` branch — prints the
    overflow diagnostic and calls sys.exit.  Unreachable in the exact ℚ
    embedding, where no float overflow or float warning can occur.
  * zeroDivCrash: an uncaught ZeroDivisionError. The division
    `npv/derivative` (line 46) is outside the try block, and a
    ZeroDivisionError raised by the power computations inside the try block
    is not caught by `except (Warning, OverflowError)` either, so either
    way the exception escapes the solver and kills the process.
  * noConvergenceExit: the 20-iteration cap was exhausted; the source prints
    "IRR could not be found!" and calls sys.exit (lines 56-57). -/
inductive IrrErr where
  | overflowExit
  | zeroDivCrash
  | noConvergenceExit
deriving DecidableEq, Repr

/-- Single pass of the solver's inner loop, source lines 38-41: for
`k in range(0, len(cf_list))` it accumulates
`npv += cf_list[k] / (1+init_rate)**k` and
`derivative += -k * cf_list[k] * (1+init_rate)**(-k-1)`.
The accumulator pair holds the two mutable locals `(npv, derivative)`. -/
def irrPass (cf_list : List ℚ) (init_rate : ℚ) : ℚ × ℚ :=
  (List.range cf_list.length).foldl
    (fun acc k =>
      (acc.1 + cf_list.getD k 0 / (1 + init_rate) ^ k,
       acc.2 + (-(k : ℚ)) * cf_list.getD k 0 * (1 + init_rate) ^ (-(k : ℤ) - 1)))
    ((0 : ℚ), (0 : ℚ))

/-- Main loop of the solver, source lines 33-54, with the remaining fuel of
the `for i in range(0, max_iter)` loop made explicit.  When the derivative
accumulated by the pass is zero, the Python division `npv/derivative`
raises an uncaught ZeroDivisionError (see IrrErr.zeroDivCrash); this also
covers the pass itself raising on a zero base `1+init_rate`, since in that
case every derivative term `-k * cf * 0**(-k-1)` contributes 0 in ℚ and
the accumulated derivative is again zero, with the same uncaught-exception
outcome in Python.  Otherwise `rate = init_rate - npv/derivative` is the
Newton update; the solver returns `rate` (the updated value) as soon as
`|rate - init_rate| <= accuracy`, and otherwise continues from `rate`. -/
def irrLoop (cf_list : List ℚ) : ℕ → ℚ → Except IrrErr ℚ
  | 0, _ => .error .noConvergenceExit
  | n + 1, init_rate =>
    if (irrPass cf_list init_rate).2 = 0 then .error .zeroDivCrash
    else
      let rate := init_rate - (irrPass cf_list init_rate).1 / (irrPass cf_list init_rate).2
      if |rate - init_rate| ≤ accuracy then .ok rate
      else irrLoop cf_list n rate

/-- IRR solver, source lines 25-57: Newton-Raphson from the initial guess
`init_rate = 0` with at most `max_iter = 20` iterations. -/
def irr (cf_list : List ℚ) : Except IrrErr ℚ := irrLoop cf_list max_iter 0

/-- Whether a solver invocation returned a rate (as opposed to one of the
failure conditions). -/
def isOk {α : Type} : Except IrrErr α → Bool
  | .ok _ => true
  | .error _ => false

/-- Round half to even on ℚ (the rounding mode of numpy's np.round). -/
def roundHalfEven (x : ℚ) : ℤ :=
  if x - ⌊x⌋ = 1 / 2 then (if 2 ∣ ⌊x⌋ then ⌊x⌋ else ⌊x⌋ + 1) else round x

/-- np.round(x, d): round x to d decimal places, halves to even. -/
def np_round (x : ℚ) (d : ℕ) : ℚ := (roundHalfEven (x * 10 ^ d) : ℚ) / 10 ^ d

/-- Column-wise mean of the draw matrix, source line 99:
`np.mean(cf_array, axis=0)` over an (n_sims × life) array gives, for each
of the `life` periods, the mean over the n_sims simulated trajectories. -/
def colMean (cf_array : List (List ℚ)) (life : ℕ) : List ℚ :=
  (List.range life).map
    (fun j => (cf_array.map (fun row => row.getD j 0)).sum / (cf_array.length : ℚ))

/-- Values the simulation driver hands to the (excluded) presentation
layer: the per-trajectory samples, source lines 95-96, and the two
aggregate estimates, source lines 102-104. -/
structure SimOutput where
  results : List (ℚ × ℚ)
  npv_e : ℚ
  irr_e : ℚ
deriving DecidableEq, Repr

/-- Per-trajectory evaluation, source lines 95-96: the list comprehension
`[[npv(row, rate), irr(row)] for row in …]` over the rows already prefixed
with the initial investment (`np.concatenate((init_invest, cf_array[j,:]))`).
Rows are evaluated left to right and the first irr failure aborts the
whole comprehension (in the source, by killing the process). -/
def runRows (init_invest rate : ℚ) : List (List ℚ) → Except IrrErr (List (ℚ × ℚ))
  | [] => .ok []
  | row :: rest =>
    match irr (init_invest :: row) with
    | .error e => .error e
    | .ok r =>
      match runRows init_invest rate rest with
      | .error e => .error e
      | .ok results => .ok ((npv (init_invest :: row) rate, r) :: results)

/-- Simulation driver, source lines 61-110, derandomised: `cf_array` is the
matrix of period cash flows drawn by the norm.ppf loop (one row per
simulation, `life` columns), and everything after the draws is translated
from the source: the per-row (NPV, IRR) samples over the prefixed rows
(lines 95-96), the mean trajectory prefixed with the initial investment
(lines 99-100), and the rounded estimates `np.round(npv(…), 2)` and
`100*np.round(irr(…), 4)` (lines 103-104).  An irr failure anywhere exits
the process in the source, so no partial results ever reach the
presentation layer; here that is an `Except.error`. -/
def montecarloSim (init_invest rate : ℚ) (life : ℕ) (cf_array : List (List ℚ)) :
    Except IrrErr SimOutput :=
  match runRows init_invest rate cf_array with
  | .error e => .error e
  | .ok results =>
    match irr (init_invest :: colMean cf_array life) with
    | .error e => .error e
    | .ok r =>
      .ok ⟨results,
           np_round (npv (init_invest :: colMean cf_array life) rate) 2,
           100 * np_round r 4⟩

/-- Effectful view of the solver against the program's only hidden state,
the global numpy random stream (modelled as a value stream plus a cursor):
the source of `irr` performs no draw and reads no mutable global, so the
result depends only on the cash-flow list and the cursor passes through
unchanged. -/
def irrRng (_stream : ℕ → ℚ) (cursor : ℕ) (cf_list : List ℚ) :
    Except IrrErr ℚ × ℕ :=
  (irr cf_list, cursor)

/-! ## Spec-side definitions

The spec (and claim C1) states the per-iteration formulas directly:
`f(r0) = Σ cf[k]/(1+r0)^k` and `f'(r0) = Σ -k·cf[k]·(1+r0)^(-k-1)`,
the update `r1 = r0 - f(r0)/f'(r0)` and the initial guess `r0 = 0`.
These are written here as literal finite sums, to be compared with the
source-translated solver. -/

/-- Spec formula for the NPV value used inside the solver:
`f(r) = Σ cf[k]/(1+r)^k`. -/
def specF (cf : List ℚ) (r : ℚ) : ℚ :=
  ∑ k ∈ Finset.range cf.length, cf.getD k 0 / (1 + r) ^ k

/-- Spec formula for the derivative used inside the solver:
`f'(r) = Σ -k·cf[k]·(1+r)^(-k-1)`. -/
def specDeriv (cf : List ℚ) (r : ℚ) : ℚ :=
  ∑ k ∈ Finset.range cf.length, (-(k : ℚ)) * cf.getD k 0 * (1 + r) ^ (-(k : ℤ) - 1)

/-- Spec Newton update: `r1 = r0 - f(r0)/f'(r0)`. -/
def specStep (cf : List ℚ) (r : ℚ) : ℚ := r - specF cf r / specDeriv cf r

/-- Spec iterate sequence: `r0 = 0`, then repeated Newton updates. -/
def specIter (cf : List ℚ) : ℕ → ℚ
  | 0 => 0
  | n + 1 => specStep cf (specIter cf n)

/-- A no-sign-change cash-flow sequence long enough to defeat the solver's
convergence test: 10^7 zeros followed by a single 1.  At the initial guess
the pass computes f = 1 and fprime = -10^7, so the very first Newton update
is 1/10^7, which the tolerance test |r1 - r0| ≤ 1e-7 accepts. -/
def bigCF : List ℚ := List.replicate (10 ^ 7) 0 ++ [1]

/-! ## Basic lemmas relating the source folds to the spec sums -/

/-- The inner pass of the solver accumulates exactly the spec sums. -/
theorem irrPass_aux (cf : List ℚ) (r0 : ℚ) (n : ℕ) (a b : ℚ) :
    (List.range n).foldl
      (fun acc k =>
        (acc.1 + cf.getD k 0 / (1 + r0) ^ k,
         acc.2 + (-(k : ℚ)) * cf.getD k 0 * (1 + r0) ^ (-(k : ℤ) - 1)))
      (a, b)
    = (a + ∑ k ∈ Finset.range n, cf.getD k 0 / (1 + r0) ^ k,
       b + ∑ k ∈ Finset.range n, (-(k : ℚ)) * cf.getD k 0 * (1 + r0) ^ (-(k : ℤ) - 1)) := by
  induction n generalizing a b with
  | zero => simp
  | succ n ih =>
    rw [List.range_succ, List.foldl_append, ih]
    refine Prod.ext ?_ ?_ <;> simp [Finset.sum_range_succ] <;> ring

theorem irrPass_eq (cf : List ℚ) (r : ℚ) :
    irrPass cf r = (specF cf r, specDeriv cf r) := by
  unfold irrPass specF specDeriv
  rw [irrPass_aux]
  simp

/-- The NPV fold accumulates exactly the discounted sum, for any starting
accumulator and starting period index. -/
theorem npv_fold (r : ℚ) (cf : List ℚ) : ∀ (a : ℚ) (i : ℕ),
    cf.foldl (fun acc cf_k => (acc.1 + cf_k / (1 + r) ^ acc.2, acc.2 + 1)) (a, i)
    = (a + ∑ k ∈ Finset.range cf.length, cf.getD k 0 / (1 + r) ^ (i + k),
       i + cf.length) := by
  induction cf with
  | nil => intro a i; simp
  | cons c cf ih =>
    intro a i
    rw [List.foldl_cons, ih]
    refine Prod.ext ?_ ?_
    · show a + c / (1 + r) ^ i
          + ∑ k ∈ Finset.range cf.length, cf.getD k 0 / (1 + r) ^ (i + 1 + k)
        = a + ∑ k ∈ Finset.range (c :: cf).length, (c :: cf).getD k 0 / (1 + r) ^ (i + k)
      rw [List.length_cons, Finset.sum_range_succ']
      simp only [List.getD_cons_succ, List.getD_cons_zero, Nat.add_zero]
      have hcong :
          ∑ k ∈ Finset.range cf.length, cf.getD k 0 / (1 + r) ^ (i + (k + 1))
          = ∑ k ∈ Finset.range cf.length, cf.getD k 0 / (1 + r) ^ (i + 1 + k) :=
        Finset.sum_congr rfl
          (fun k _ => by rw [show i + (k + 1) = i + 1 + k from by omega])
      rw [hcong]
      ring
    · show i + 1 + cf.length = i + (c :: cf).length
      simp [List.length_cons]; omega

/-- The NPV evaluator computes the spec's discounted sum. -/
theorem npv_eq_sum (cf : List ℚ) (r : ℚ) : npv cf r = specF cf r := by
  unfold npv specF
  rw [npv_fold]
  simp

/-! ## Claim C2 -/

/-- C2: for every cash-flow sequence of length at least 1 and every rate
r > -1, the NPV evaluator returns exactly the sum of cf[i]/(1+r)^i over
i = 0..len-1 (it is a pure function, so there are no side effects), and in
particular on a single-element sequence it returns that element for any
such rate. -/
theorem C2_npv_formula (cf : List ℚ) (r c : ℚ) (hr : -1 < r) (hlen : 1 ≤ cf.length) :
    npv cf r = ∑ k ∈ Finset.range cf.length, cf.getD k 0 / (1 + r) ^ k
    ∧ npv [c] r = c := by
  refine ⟨npv_eq_sum cf r, ?_⟩
  rw [npv_eq_sum]
  simp [specF]

/-- Witness for C2: the instance cf = [-100, 110], r = 1/10, c = 7. -/
theorem C2_witness :
    npv [-100, 110] (1 / 10)
      = ∑ k ∈ Finset.range (([-100, 110] : List ℚ)).length,
          (([-100, 110] : List ℚ)).getD k 0 / (1 + 1 / 10) ^ k
    ∧ npv [(7 : ℚ)] (1 / 10) = 7 :=
  C2_npv_formula [-100, 110] (1 / 10) 7 (by with_unfolding_all decide)
    (by with_unfolding_all decide)

/-! ## Claim C10 -/

/-- C10: applied to the empty cash-flow sequence (outside the spec's
stated domain of length at least 1), the NPV evaluator returns 0 for every
rate rather than failing: the source loop body never runs and the
initialised accumulator 0 is returned. -/
theorem C10_npv_empty (r : ℚ) : npv [] r = 0 := rfl

/-! ## Claim C9 -/

/-- C9: the IRR solver is deterministic. Viewed against the program's only
hidden state, the global random stream, the solver's result is independent
of the stream and of the cursor position (so two invocations on the same
cash-flow list always agree), and the cursor passes through unchanged (the
solver consumes no randomness). -/
theorem C9_irr_deterministic (cf : List ℚ) (s₁ s₂ : ℕ → ℚ) (c₁ c₂ : ℕ) :
    (irrRng s₁ c₁ cf).1 = (irrRng s₂ c₂ cf).1 ∧ (irrRng s₁ c₁ cf).2 = c₁ :=
  ⟨rfl, rfl⟩

/-! ## Claim C4 -/

/-- C4 (code bug): on the cash-flow sequence [1] the derivative accumulated
at the initial guess 0 is exactly zero (its only term is -0·1·(1+0)^(-1)),
and the solver's outcome is the uncaught ZeroDivisionError crash — which is
a different failure condition from the Overflow branch: the division
npv/derivative on source line 46 sits outside the try/except of lines
39-44, so the claimed Overflow handling (diagnostic message) never runs and
the exception escapes the solver unhandled. -/
theorem C4_deriv_zero_uncaught :
    irr [1] = .error .zeroDivCrash
    ∧ IrrErr.zeroDivCrash ≠ IrrErr.overflowExit := by
  exact ⟨by with_unfolding_all decide, by with_unfolding_all decide⟩

/-! ## Loop characterisation lemmas for the solver -/

/-- If the solver loop, standing at the j-th spec iterate with some fuel
left, returns a rate, then that rate is the first later spec iterate whose
Newton update moved by at most the tolerance (and it is the updated value,
one past the iterate the test compared it with). -/
theorem irrLoop_ok_char (cf : List ℚ) :
    ∀ (fuel j : ℕ) (r out : ℚ), r = specIter cf j →
      irrLoop cf fuel r = .ok out →
      ∃ i, i < fuel ∧ out = specIter cf (j + i + 1)
        ∧ |specIter cf (j + i + 1) - specIter cf (j + i)| ≤ accuracy
        ∧ ∀ m, m < i → accuracy < |specIter cf (j + m + 1) - specIter cf (j + m)| := by
  intro fuel
  induction fuel with
  | zero =>
    intro j r out hr h
    exact absurd h (by simp [irrLoop])
  | succ n ih =>
    intro j r out hr h
    subst hr
    rw [irrLoop, irrPass_eq] at h
    by_cases hd : specDeriv cf (specIter cf j) = 0
    · rw [if_pos hd] at h
      exact absurd h (by simp)
    · rw [if_neg hd] at h
      have h' :
          (if |specIter cf (j + 1) - specIter cf j| ≤ accuracy
            then Except.ok (specIter cf (j + 1))
            else irrLoop cf n (specIter cf (j + 1))) = .ok out := h
      by_cases hc : |specIter cf (j + 1) - specIter cf j| ≤ accuracy
      · rw [if_pos hc] at h'
        refine ⟨0, by omega, ?_, ?_, fun m hm => absurd hm (by omega)⟩
        · simpa using (Except.ok.inj h').symm
        · simpa using hc
      · rw [if_neg hc] at h'
        obtain ⟨i, hi, hout, hle, hall⟩ := ih (j + 1) _ out rfl h'
        refine ⟨i + 1, by omega, ?_, ?_, ?_⟩
        · rw [hout]
          exact congrArg (specIter cf) (by omega)
        · have := hle
          rw [show j + 1 + i + 1 = j + (i + 1) + 1 from by omega,
              show j + 1 + i = j + (i + 1) from by omega] at this
          exact this
        · intro m hm
          cases m with
          | zero => simpa using not_le.mp hc
          | succ m =>
            have := hall m (by omega)
            rw [show j + 1 + m + 1 = j + (m + 1) + 1 from by omega,
                show j + 1 + m = j + (m + 1) from by omega] at this
            exact this

/-- If, standing at the j-th spec iterate, every one of the next `fuel`
Newton updates is well-defined (nonzero derivative) and moves by more than
the tolerance, the loop exhausts its fuel and reports no convergence. -/
theorem irrLoop_noconv (cf : List ℚ) :
    ∀ (fuel j : ℕ) (r : ℚ), r = specIter cf j →
      (∀ m, j ≤ m → m < j + fuel →
        specDeriv cf (specIter cf m) ≠ 0
        ∧ accuracy < |specIter cf (m + 1) - specIter cf m|) →
      irrLoop cf fuel r = .error .noConvergenceExit := by
  intro fuel
  induction fuel with
  | zero => intro j r hr hall; rfl
  | succ n ih =>
    intro j r hr hall
    subst hr
    have h0 := hall j (le_refl j) (by omega)
    rw [irrLoop, irrPass_eq, if_neg h0.1]
    show (if |specIter cf (j + 1) - specIter cf j| ≤ accuracy
          then Except.ok (specIter cf (j + 1))
          else irrLoop cf n (specIter cf (j + 1))) = .error .noConvergenceExit
    rw [if_neg (not_le.mpr h0.2)]
    exact ih (j + 1) _ rfl (fun m hm1 hm2 => hall m (by omega) (by omega))

/-! ## Claim C1 -/

/-- C1: the IRR solver implements Newton-Raphson on the NPV function. The
spec iterate sequence starts at the initial guess r0 = 0 and applies the
update r1 = r0 - f(r0)/f'(r0) built from the spec's one-pass sums
f(r0) = Σ cf[k]/(1+r0)^k and f'(r0) = Σ -k·cf[k]·(1+r0)^(-k-1); whenever
the solver returns a rate, that rate is specIter cf (i+1) for the first
index i (within the iteration cap) at which |r1 - r0| ≤ 1e-7 — i.e. the
solver returns the updated value r1, stops as soon as the tolerance test
passes, and otherwise continues from r1. -/
theorem C1_irr_newton (cf : List ℚ) (out : ℚ) (h : irr cf = .ok out) :
    specIter cf 0 = 0
    ∧ ∃ i, i < max_iter ∧ out = specIter cf (i + 1)
        ∧ |specIter cf (i + 1) - specIter cf i| ≤ accuracy
        ∧ ∀ m, m < i → accuracy < |specIter cf (m + 1) - specIter cf m| := by
  refine ⟨rfl, ?_⟩
  have hc := irrLoop_ok_char cf max_iter 0 0 out rfl h
  simpa using hc

/-- Witness for C1: on [-1, 1] the solver returns 0, which is the first
spec iterate (i = 0) and satisfies the tolerance test at once. -/
theorem C1_witness :
    irr [-1, 1] = .ok 0
    ∧ (specIter [-1, 1] 0 = 0
       ∧ ∃ i, i < max_iter ∧ (0 : ℚ) = specIter [-1, 1] (i + 1)
           ∧ |specIter [-1, 1] (i + 1) - specIter [-1, 1] i| ≤ accuracy
           ∧ ∀ m, m < i →
               accuracy < |specIter [-1, 1] (m + 1) - specIter [-1, 1] m|) :=
  ⟨by with_unfolding_all decide,
   C1_irr_newton [-1, 1] 0 (by with_unfolding_all decide)⟩

/-! ## Claim C3 -/

/-- C3: if the 20 Newton-Raphson iterations all complete (each with a
nonzero derivative, so no division anomaly interrupts them) and none of
the successive-estimate differences falls within the 1e-7 tolerance, the
solver fails with the NoConvergence condition instead of returning a
rate. -/
theorem C3_no_convergence (cf : List ℚ)
    (h : ∀ i, i < max_iter →
      specDeriv cf (specIter cf i) ≠ 0
      ∧ accuracy < |specIter cf (i + 1) - specIter cf i|) :
    irr cf = .error .noConvergenceExit :=
  irrLoop_noconv cf max_iter 0 0 rfl (fun m hm1 hm2 => h m (by omega))

/-- Witness for C3: on [0, 1] the Newton iterates are 2^i - 1, every update
moves by 2^i > 1e-7 with derivative -(2^i)^(-2) ≠ 0, and the solver indeed
reports NoConvergence after its 20 iterations. -/
theorem C3_witness : irr [0, 1] = .error .noConvergenceExit :=
  C3_no_convergence [0, 1] (by with_unfolding_all decide)

/-! ## Lemmas about the simulation driver -/

/-- In-bounds getD values are members of the list. -/
theorem getD_mem {α : Type} : ∀ (l : List α) (i : ℕ) (d : α), i < l.length →
    l.getD i d ∈ l := by
  intro l
  induction l with
  | nil => intro i d h; exact absurd h (by simp)
  | cons x xs ih =>
    intro i d h
    cases i with
    | zero => simp
    | succ i => simpa using Or.inr (ih i d (by simpa using h))

/-- A non-ok solver outcome is one of the error conditions. -/
theorem isOk_false {α : Type} {x : Except IrrErr α} (h : isOk x = false) :
    ∃ e, x = .error e := by
  cases x with
  | ok a => simp [isOk] at h
  | error e => exact ⟨e, rfl⟩

/-- If the solver fails on any one of the prefixed trajectories, the
per-trajectory evaluation fails. -/
theorem runRows_fails (init rate : ℚ) :
    ∀ rows : List (List ℚ), (∃ row ∈ rows, isOk (irr (init :: row)) = false) →
      ∃ e, runRows init rate rows = .error e := by
  intro rows
  induction rows with
  | nil => rintro ⟨row, hmem, hbad⟩; exact absurd hmem (by simp)
  | cons row rest ih =>
    rintro ⟨r0, hmem, hbad⟩
    rcases List.mem_cons.mp hmem with rfl | hmem'
    · obtain ⟨e, he⟩ := isOk_false hbad
      exact ⟨e, by rw [runRows, he]⟩
    · cases hirr : irr (init :: row) with
      | error e => exact ⟨e, by rw [runRows, hirr]⟩
      | ok r =>
        obtain ⟨e, he⟩ := ih ⟨r0, hmem', hbad⟩
        exact ⟨e, by rw [runRows, hirr, he]⟩

/-- Successful per-trajectory evaluation: one sample per row, and the i-th
sample is the (NPV, IRR) pair of the i-th prefixed row. -/
theorem runRows_ok_char (init rate : ℚ) :
    ∀ (rows : List (List ℚ)) (results : List (ℚ × ℚ)),
      runRows init rate rows = .ok results →
      results.length = rows.length
      ∧ ∀ i, i < rows.length →
          ∃ r, irr (init :: rows.getD i []) = .ok r
            ∧ results.getD i (0, 0) = (npv (init :: rows.getD i []) rate, r) := by
  intro rows
  induction rows with
  | nil =>
    intro results h
    rw [runRows] at h
    cases h
    exact ⟨rfl, fun i hi => absurd hi (by simp)⟩
  | cons row rest ih =>
    intro results h
    rw [runRows] at h
    cases hirr : irr (init :: row) with
    | error e => rw [hirr] at h; cases h
    | ok r =>
      rw [hirr] at h
      cases hrest : runRows init rate rest with
      | error e => rw [hrest] at h; cases h
      | ok res' =>
        rw [hrest] at h
        cases h
        obtain ⟨hlen, hall⟩ := ih res' hrest
        refine ⟨by simpa using hlen, ?_⟩
        intro i hi
        cases i with
        | zero => exact ⟨r, hirr, by simp⟩
        | succ i =>
          obtain ⟨r', h1, h2⟩ := hall i (by simpa using hi)
          exact ⟨r', by simpa using h1, by simpa using h2⟩

/-! ## Claim C5 -/

/-- C5: if the IRR solver fails (with any of its failure conditions) on
any one of the prefixed simulated trajectories, or on the prefixed
aggregate mean trajectory, the whole simulation run fails: the driver
returns an error carrying nothing but the failure condition, so no subset
of the samples and no estimate is returned. -/
theorem C5_failure_aborts (init rate : ℚ) (life : ℕ) (cf_array : List (List ℚ))
    (h : (∃ row ∈ cf_array, isOk (irr (init :: row)) = false)
         ∨ isOk (irr (init :: colMean cf_array life)) = false) :
    ∃ e, montecarloSim init rate life cf_array = .error e := by
  cases h with
  | inl h1 =>
    obtain ⟨e, he⟩ := runRows_fails init rate cf_array h1
    exact ⟨e, by rw [montecarloSim, he]⟩
  | inr h2 =>
    cases hrr : runRows init rate cf_array with
    | error e => exact ⟨e, by rw [montecarloSim, hrr]⟩
    | ok results =>
      obtain ⟨e, he⟩ := isOk_false h2
      exact ⟨e, by rw [montecarloSim, hrr, he]⟩

/-- Witness for C5: with initial investment 5 and the single drawn
trajectory [0], the prefixed trajectory [5, 0] makes the solver crash, and
the whole run errors out. -/
theorem C5_witness : ∃ e, montecarloSim 5 0 1 [[0]] = .error e :=
  C5_failure_aborts 5 0 1 [[0]] (Or.inl (by with_unfolding_all decide))

/-! ## Claim C6 -/

/-- C6: a successful run over an n_sims-row draw matrix produces exactly
n_sims samples; the i-th sample is computed from the sequence formed by
the caller-supplied initial investment (never randomised — it is the same
init_invest for every row, and is the sequence's first element) followed
by the i-th row's life drawn period cash flows, a sequence of length
life + 1. -/
theorem C6_samples (init rate : ℚ) (life : ℕ) (cf_array : List (List ℚ))
    (out : SimOutput)
    (hrows : ∀ row ∈ cf_array, row.length = life)
    (h : montecarloSim init rate life cf_array = .ok out) :
    out.results.length = cf_array.length
    ∧ ∀ i, i < cf_array.length →
        (init :: cf_array.getD i []).length = life + 1
        ∧ (init :: cf_array.getD i []).getD 0 0 = init
        ∧ ∃ r, irr (init :: cf_array.getD i []) = .ok r
            ∧ out.results.getD i (0, 0) = (npv (init :: cf_array.getD i []) rate, r) := by
  rw [montecarloSim] at h
  cases hrr : runRows init rate cf_array with
  | error e => rw [hrr] at h; cases h
  | ok results =>
    rw [hrr] at h
    cases hm : irr (init :: colMean cf_array life) with
    | error e => rw [hm] at h; cases h
    | ok r =>
      rw [hm] at h
      cases h
      obtain ⟨hlen, hall⟩ := runRows_ok_char init rate cf_array results hrr
      refine ⟨hlen, fun i hi => ?_⟩
      refine ⟨?_, rfl, hall i hi⟩
      have hmem := getD_mem cf_array i [] hi
      rw [List.length_cons, hrows _ hmem]

/-- Witness for C6: a one-simulation run with initial investment -1 and
drawn trajectory [1]. -/
theorem C6_witness :
    montecarloSim (-1) 0 1 [[1]] = .ok ⟨[(0, 0)], 0, 0⟩
    ∧ ((⟨[(0, 0)], 0, 0⟩ : SimOutput).results.length = [[(1 : ℚ)]].length
       ∧ ∀ i, i < [[(1 : ℚ)]].length →
           ((-1 : ℚ) :: [[(1 : ℚ)]].getD i []).length = 1 + 1
           ∧ ((-1 : ℚ) :: [[(1 : ℚ)]].getD i []).getD 0 0 = -1
           ∧ ∃ r, irr ((-1 : ℚ) :: [[(1 : ℚ)]].getD i []) = .ok r
               ∧ (⟨[(0, 0)], 0, 0⟩ : SimOutput).results.getD i (0, 0)
                   = (npv ((-1 : ℚ) :: [[(1 : ℚ)]].getD i []) 0, r)) :=
  ⟨by with_unfolding_all decide,
   C6_samples (-1) 0 1 [[1]] ⟨[(0, 0)], 0, 0⟩ (by with_unfolding_all decide)
     (by with_unfolding_all decide)⟩

/-! ## Claim C7 -/

/-- C7: on a successful run the aggregate estimate comes from the single
mean trajectory — the element-wise mean of the rows for each of the life
periods, prefixed with the initial investment — with the NPV evaluator and
the IRR solver each run once on that sequence (not from averaging the
per-trajectory NPVs/IRRs, which never enter the estimate): the estimate's
NPV is np.round(npv(mean trajectory), 2) and its IRR is
100 * np.round(irr(mean trajectory), 4). -/
theorem C7_aggregate (init rate : ℚ) (life : ℕ) (cf_array : List (List ℚ))
    (out : SimOutput)
    (h : montecarloSim init rate life cf_array = .ok out) :
    out.npv_e = np_round (npv (init :: colMean cf_array life) rate) 2
    ∧ ∃ r, irr (init :: colMean cf_array life) = .ok r
        ∧ out.irr_e = 100 * np_round r 4 := by
  rw [montecarloSim] at h
  cases hrr : runRows init rate cf_array with
  | error e => rw [hrr] at h; cases h
  | ok results =>
    rw [hrr] at h
    cases hm : irr (init :: colMean cf_array life) with
    | error e => rw [hm] at h; cases h
    | ok r =>
      rw [hm] at h
      cases h
      exact ⟨rfl, r, rfl, rfl⟩

/-- Witness for C7: a one-simulation run with initial investment -2 and
drawn trajectory [2]; the mean trajectory is [-2, 2]. -/
theorem C7_witness :
    montecarloSim (-2) 0 1 [[2]] = .ok ⟨[(0, 0)], 0, 0⟩
    ∧ ((⟨[(0, 0)], 0, 0⟩ : SimOutput).npv_e
         = np_round (npv ((-2 : ℚ) :: colMean [[(2 : ℚ)]] 1) 0) 2
       ∧ ∃ r, irr ((-2 : ℚ) :: colMean [[(2 : ℚ)]] 1) = .ok r
           ∧ (⟨[(0, 0)], 0, 0⟩ : SimOutput).irr_e = 100 * np_round r 4) :=
  ⟨by with_unfolding_all decide,
   C7_aggregate (-2) 0 1 [[2]] ⟨[(0, 0)], 0, 0⟩ (by with_unfolding_all decide)⟩

/-! ## Claim C8: no-sign-change sequences -/

/-- Unfolding one iteration of the solver loop in terms of the spec sums. -/
theorem irrLoop_succ (cf : List ℚ) (n : ℕ) (r : ℚ) :
    irrLoop cf (n + 1) r
    = (if specDeriv cf r = 0 then Except.error IrrErr.zeroDivCrash
       else if |(r - specF cf r / specDeriv cf r) - r| ≤ accuracy
         then Except.ok (r - specF cf r / specDeriv cf r)
         else irrLoop cf n (r - specF cf r / specDeriv cf r)) := by
  have h : irrLoop cf (n + 1) r
      = (if (irrPass cf r).2 = 0 then Except.error IrrErr.zeroDivCrash
         else if |(r - (irrPass cf r).1 / (irrPass cf r).2) - r| ≤ accuracy
           then Except.ok (r - (irrPass cf r).1 / (irrPass cf r).2)
           else irrLoop cf n (r - (irrPass cf r).1 / (irrPass cf r).2)) := rfl
  rw [h, irrPass_eq]

/-- Out-of-range getD returns the default. -/
theorem getD_of_le {α : Type} (l : List α) (k : ℕ) (d : α) (h : l.length ≤ k) :
    l.getD k d = d := by
  rw [List.getD_eq_getElem?_getD, List.getElem?_eq_none h]
  rfl

/-- Every indexed read from an entrywise-nonnegative list is nonnegative. -/
theorem getD_nonneg {cf : List ℚ} (h : ∀ x ∈ cf, 0 ≤ x) (k : ℕ) :
    0 ≤ cf.getD k 0 := by
  by_cases hk : k < cf.length
  · exact h _ (getD_mem cf k 0 hk)
  · rw [getD_of_le cf k 0 (by omega)]

/-- The solver's integer power, written as an inverse natural power. -/
theorem zpow_neg_succ (x : ℚ) (k : ℕ) : x ^ (-(k : ℤ) - 1) = (x ^ (k + 1))⁻¹ := by
  rw [show -(k : ℤ) - 1 = -((k + 1 : ℕ) : ℤ) from by push_cast; ring, zpow_neg,
    zpow_natCast]

/-- For a nonnegative cash-flow list and a nonnegative rate, f(r) ≥ 0. -/
theorem specF_nonneg (cf : List ℚ) (r : ℚ) (hcf : ∀ x ∈ cf, 0 ≤ x) (hr : 0 ≤ r) :
    0 ≤ specF cf r := by
  unfold specF
  exact Finset.sum_nonneg fun k hk =>
    div_nonneg (getD_nonneg hcf k) (pow_nonneg (by linarith) k)

/-- For a nonnegative cash-flow list and a nonnegative rate, f'(r) ≤ 0. -/
theorem specDeriv_nonpos (cf : List ℚ) (r : ℚ) (hcf : ∀ x ∈ cf, 0 ≤ x) (hr : 0 ≤ r) :
    specDeriv cf r ≤ 0 := by
  unfold specDeriv
  refine Finset.sum_nonpos fun k hk => ?_
  have hx : (0 : ℚ) < 1 + r := by linarith
  have h1 : 0 ≤ (k : ℚ) * cf.getD k 0 * (1 + r) ^ (-(k : ℤ) - 1) :=
    mul_nonneg (mul_nonneg (by positivity) (getD_nonneg hcf k))
      (le_of_lt (zpow_pos hx (-(k : ℤ) - 1)))
  have h2 : (-(k : ℚ)) * cf.getD k 0 * (1 + r) ^ (-(k : ℤ) - 1)
      = -((k : ℚ) * cf.getD k 0 * (1 + r) ^ (-(k : ℤ) - 1)) := by ring
  rw [h2]
  linarith

/-- A nonzero derivative sum needs at least two cash flows: with none the
sum is empty, with one its only term carries the factor k = 0. -/
theorem specDeriv_len (cf : List ℚ) (r : ℚ) (h : specDeriv cf r ≠ 0) :
    2 ≤ cf.length := by
  by_contra hlt
  push_neg at hlt
  apply h
  rcases cf with _ | ⟨c, _ | ⟨d, tl⟩⟩
  · simp [specDeriv]
  · simp [specDeriv]
  · exfalso
    simp at hlt
    omega

/-- Term-by-term bound: multiplying the (negated) derivative sum by 1+r
turns each term into k·cf[k]/(1+r)^k, which is at most (len-1)·cf[k]/(1+r)^k. -/
theorem deriv_le (cf : List ℚ) (r : ℚ) (hcf : ∀ x ∈ cf, 0 ≤ x) (hr : 0 ≤ r) :
    (1 + r) * -(specDeriv cf r) ≤ ((cf.length - 1 : ℕ) : ℚ) * specF cf r := by
  unfold specF specDeriv
  rw [← Finset.sum_neg_distrib, Finset.mul_sum, Finset.mul_sum]
  refine Finset.sum_le_sum fun k hk => ?_
  have hx : (0 : ℚ) < 1 + r := by linarith
  have hxne : (1 + r) ≠ 0 := ne_of_gt hx
  have hkK : (k : ℚ) ≤ ((cf.length - 1 : ℕ) : ℚ) := by
    have hk' : k ≤ cf.length - 1 := by
      have := Finset.mem_range.mp hk
      omega
    exact_mod_cast hk'
  have hterm : (1 + r) * -((-(k : ℚ)) * cf.getD k 0 * (1 + r) ^ (-(k : ℤ) - 1))
      = (k : ℚ) * (cf.getD k 0 / (1 + r) ^ k) := by
    rw [zpow_neg_succ]
    field_simp
    ring
  rw [hterm]
  exact mul_le_mul_of_nonneg_right hkK
    (div_nonneg (getD_nonneg hcf k) (pow_nonneg (by linarith) k))

/-- Core inequality: at any nonnegative iterate of a nonnegative cash-flow
list of length at most 10^7, the Newton update moves by strictly more than
the tolerance. -/
theorem step_gt (cf : List ℚ) (r : ℚ) (hcf : ∀ x ∈ cf, 0 ≤ x)
    (hlen : cf.length ≤ 10 ^ 7) (hr : 0 ≤ r) (hd : specDeriv cf r ≠ 0) :
    accuracy < specF cf r / -(specDeriv cf r) := by
  have hd' : specDeriv cf r < 0 := lt_of_le_of_ne (specDeriv_nonpos cf r hcf hr) hd
  have hdpos : 0 < -(specDeriv cf r) := by linarith
  have hK2 : 2 ≤ cf.length := specDeriv_len cf r hd
  have hKpos : (0 : ℚ) < ((cf.length - 1 : ℕ) : ℚ) := by
    have h1 : 1 ≤ cf.length - 1 := by omega
    have h2 : (1 : ℚ) ≤ ((cf.length - 1 : ℕ) : ℚ) := by exact_mod_cast h1
    linarith
  have hKlt : ((cf.length - 1 : ℕ) : ℚ) < 10 ^ 7 := by
    have h1 : cf.length - 1 < 10 ^ 7 := by omega
    calc ((cf.length - 1 : ℕ) : ℚ) < ((10 ^ 7 : ℕ) : ℚ) := by exact_mod_cast h1
    _ = 10 ^ 7 := by push_cast; ring
  have hb := deriv_le cf r hcf hr
  have h1 : -(specDeriv cf r) ≤ ((cf.length - 1 : ℕ) : ℚ) * specF cf r := by
    have h2 : 1 * -(specDeriv cf r) ≤ (1 + r) * -(specDeriv cf r) :=
      mul_le_mul_of_nonneg_right (by linarith) (le_of_lt hdpos)
    linarith
  have h3 : 1 / ((cf.length - 1 : ℕ) : ℚ) ≤ specF cf r / -(specDeriv cf r) := by
    rw [div_le_div_iff₀ hKpos hdpos, one_mul, mul_comm]
    exact h1
  have h4 : accuracy < 1 / ((cf.length - 1 : ℕ) : ℚ) := by
    rw [show accuracy = 1 / 10 ^ 7 from rfl,
      div_lt_div_iff₀ (by norm_num : (0 : ℚ) < 10 ^ 7) hKpos, one_mul, one_mul]
    exact hKlt
  linarith

/-- On a nonnegative cash-flow list of length at most 10^7, the solver
loop never returns a rate from any nonnegative iterate: every update
either hits a zero derivative (crash) or moves by more than the tolerance
until the fuel runs out. -/
theorem irrLoop_no_sign_pos (cf : List ℚ) (hcf : ∀ x ∈ cf, 0 ≤ x)
    (hlen : cf.length ≤ 10 ^ 7) :
    ∀ (fuel : ℕ) (r : ℚ), 0 ≤ r →
      irrLoop cf fuel r = .error .noConvergenceExit
      ∨ irrLoop cf fuel r = .error .zeroDivCrash := by
  intro fuel
  induction fuel with
  | zero => intro r hr; exact Or.inl rfl
  | succ n ih =>
    intro r hr
    rw [irrLoop_succ]
    by_cases hd : specDeriv cf r = 0
    · rw [if_pos hd]
      exact Or.inr rfl
    · rw [if_neg hd]
      have hstep := step_gt cf r hcf hlen hr hd
      have hd' : specDeriv cf r < 0 := lt_of_le_of_ne (specDeriv_nonpos cf r hcf hr) hd
      have heq : r - specF cf r / specDeriv cf r = r + specF cf r / -(specDeriv cf r) := by
        rw [div_neg]
        ring
      have hpos : 0 < specF cf r / -(specDeriv cf r) :=
        lt_trans (by norm_num [accuracy]) hstep
      have habs : |(r - specF cf r / specDeriv cf r) - r|
          = specF cf r / -(specDeriv cf r) := by
        rw [heq, add_sub_cancel_left]
        exact abs_of_pos hpos
      rw [if_neg (by rw [habs]; exact not_le.mpr hstep)]
      exact ih _ (by rw [heq]; linarith)

/-- Indexed reads commute with entrywise negation (default 0). -/
theorem map_neg_getD (cf : List ℚ) (k : ℕ) :
    (cf.map fun x => -x).getD k 0 = -(cf.getD k 0) := by
  rw [List.getD_eq_getElem?_getD, List.getD_eq_getElem?_getD, List.getElem?_map]
  cases h : cf[k]? with
  | none => simp
  | some a => simp

/-- Negating every cash flow negates f(r). -/
theorem specF_neg (cf : List ℚ) (r : ℚ) :
    specF (cf.map fun x => -x) r = -(specF cf r) := by
  unfold specF
  rw [List.length_map, ← Finset.sum_neg_distrib]
  exact Finset.sum_congr rfl fun k hk => by rw [map_neg_getD, neg_div]

/-- Negating every cash flow negates f'(r). -/
theorem specDeriv_neg (cf : List ℚ) (r : ℚ) :
    specDeriv (cf.map fun x => -x) r = -(specDeriv cf r) := by
  unfold specDeriv
  rw [List.length_map, ← Finset.sum_neg_distrib]
  refine Finset.sum_congr rfl fun k hk => ?_
  rw [map_neg_getD]
  ring

/-- The solver cannot tell a cash-flow list from its entrywise negation:
the Newton quotient f/f' is invariant under negating every cash flow. -/
theorem irrLoop_map_neg (cf : List ℚ) :
    ∀ (fuel : ℕ) (r : ℚ), irrLoop (cf.map fun x => -x) fuel r = irrLoop cf fuel r := by
  intro fuel
  induction fuel with
  | zero => intro r; rfl
  | succ n ih =>
    intro r
    rw [irrLoop_succ, irrLoop_succ, specF_neg, specDeriv_neg]
    simp only [neg_div_neg_eq, neg_eq_zero]
    by_cases hd : specDeriv cf r = 0
    · rw [if_pos hd, if_pos hd]
    · rw [if_neg hd, if_neg hd]
      by_cases hc : |(r - specF cf r / specDeriv cf r) - r| ≤ accuracy
      · rw [if_pos hc, if_pos hc]
      · rw [if_neg hc, if_neg hc, ih]

/-- C8 (amended): for every cash-flow sequence of length at most 10^7 with
no sign change (all entries ≥ 0 or all entries ≤ 0), the IRR solver never
returns a rate as if it had converged: it terminates with the
NoConvergence condition or with the uncaught division-by-zero crash (the
crash — not the Overflow condition — is what the code produces on a zero
derivative, and in exact arithmetic the Overflow condition itself cannot
arise).  The length bound is necessary: see the accompanying
counterexample, where a no-sign-change sequence of length 10^7 + 1 makes
the solver return a rate. -/
theorem C8_no_sign_change (cf : List ℚ) (hlen : cf.length ≤ 10 ^ 7)
    (hsign : (∀ x ∈ cf, 0 ≤ x) ∨ (∀ x ∈ cf, x ≤ 0)) :
    irr cf = .error .noConvergenceExit ∨ irr cf = .error .zeroDivCrash := by
  cases hsign with
  | inl hpos => exact irrLoop_no_sign_pos cf hpos hlen max_iter 0 (le_refl 0)
  | inr hneg =>
    have hmap : ∀ x ∈ cf.map (fun x => -x), 0 ≤ x := by
      intro x hx
      rcases List.mem_map.mp hx with ⟨y, hy, rfl⟩
      have := hneg y hy
      linarith
    have hlen' : (cf.map fun x => -x).length ≤ 10 ^ 7 := by
      rw [List.length_map]
      exact hlen
    have hres := irrLoop_no_sign_pos (cf.map fun x => -x) hmap hlen' max_iter 0 (le_refl 0)
    rw [irrLoop_map_neg] at hres
    exact hres

/-- Witness for C8 (amended): the all-nonnegative sequence [0, 1]. -/
theorem C8_witness :
    irr [0, 1] = .error .noConvergenceExit ∨ irr [0, 1] = .error .zeroDivCrash :=
  C8_no_sign_change [0, 1] (by with_unfolding_all decide)
    (Or.inl (by with_unfolding_all decide))

theorem bigCF_length : bigCF.length = 10 ^ 7 + 1 := by
  unfold bigCF
  rw [List.length_append, List.length_replicate, List.length_singleton]

theorem bigCF_getD (k : ℕ) : bigCF.getD k 0 = if k = 10 ^ 7 then 1 else 0 := by
  unfold bigCF
  rw [List.getD_eq_getElem?_getD]
  by_cases hk : k < 10 ^ 7
  · rw [List.getElem?_append_left (by rw [List.length_replicate]; exact hk),
      List.getElem?_replicate, if_pos hk, if_neg (by omega)]
    rfl
  · rw [List.getElem?_append_right (by rw [List.length_replicate]; omega),
      List.length_replicate]
    by_cases hk2 : k = 10 ^ 7
    · subst hk2
      rw [Nat.sub_self, if_pos rfl]
      rfl
    · rw [List.getElem?_eq_none (by rw [List.length_singleton]; omega), if_neg hk2]
      rfl

theorem bigCF_specF : specF bigCF 0 = 1 := by
  unfold specF
  rw [bigCF_length]
  have hterm : ∀ k ∈ Finset.range (10 ^ 7 + 1),
      bigCF.getD k 0 / (1 + 0) ^ k = if k = 10 ^ 7 then (fun _ : ℕ => (1 : ℚ)) k else 0 := by
    intro k hk
    rw [bigCF_getD]
    split <;> norm_num
  rw [Finset.sum_congr rfl hterm,
    Finset.sum_ite_eq' (Finset.range (10 ^ 7 + 1)) (10 ^ 7) fun _ : ℕ => (1 : ℚ),
    if_pos (Finset.mem_range.mpr (by omega))]

theorem bigCF_specDeriv : specDeriv bigCF 0 = -(10 ^ 7 : ℚ) := by
  unfold specDeriv
  rw [bigCF_length]
  have hterm : ∀ k ∈ Finset.range (10 ^ 7 + 1),
      (-(k : ℚ)) * bigCF.getD k 0 * (1 + 0) ^ (-(k : ℤ) - 1)
      = if k = 10 ^ 7 then (fun i : ℕ => -(i : ℚ)) k else 0 := by
    intro k hk
    rw [bigCF_getD]
    split <;> norm_num
  rw [Finset.sum_congr rfl hterm,
    Finset.sum_ite_eq' (Finset.range (10 ^ 7 + 1)) (10 ^ 7) fun i : ℕ => -(i : ℚ),
    if_pos (Finset.mem_range.mpr (by omega))]
  norm_num

/-- On bigCF the solver accepts the very first Newton update. -/
theorem bigCF_irr : irr bigCF = .ok (1 / 10 ^ 7) := by
  show irrLoop bigCF max_iter 0 = _
  rw [show max_iter = 19 + 1 from rfl, irrLoop_succ, bigCF_specDeriv, bigCF_specF]
  have habs : |((0 : ℚ) - 1 / -(10 ^ 7)) - 0| = 1 / 10 ^ 7 := by
    rw [show ((0 : ℚ) - 1 / -(10 ^ 7)) - 0 = 1 / 10 ^ 7 from by norm_num]
    exact abs_of_pos (by norm_num)
  rw [if_neg (by norm_num), if_pos (by rw [habs]; norm_num [accuracy])]
  norm_num

/-- C8 (counterexample): the claim as stated fails twice over.  The
no-sign-change sequence [5, 0] does not produce NoConvergence or Overflow:
its derivative at the initial guess is zero, so the solver dies on the
uncaught ZeroDivisionError, a third, distinct outcome.  And the
no-sign-change (all-nonnegative) sequence of 10^7 zeros followed by 1
makes the solver return the rate 1e-7 as if it had converged. -/
theorem C8_counterexample :
    irr [5, 0] = .error .zeroDivCrash
    ∧ IrrErr.zeroDivCrash ≠ IrrErr.noConvergenceExit
    ∧ IrrErr.zeroDivCrash ≠ IrrErr.overflowExit
    ∧ (∀ x ∈ bigCF, 0 ≤ x)
    ∧ irr bigCF = .ok (1 / 10 ^ 7) := by
  refine ⟨by with_unfolding_all decide, by decide, by decide, ?_, bigCF_irr⟩
  intro x hx
  unfold bigCF at hx
  rcases List.mem_append.mp hx with h | h
  · rw [List.eq_of_mem_replicate h]
  · rw [List.mem_singleton.mp h]
    norm_num

end NpvIrr

